import Mathlib

/-!
Verification development for the rivas-lab MRP repository.

The repository contains, under version control here:
* two R notebooks preparing the variant reference tables (annotation
  merging for the combined array+exome dataset, and quality-control
  filtering for the array dataset),
* a batch-submission shell script (`submit_jobs.sh`) iterating over
  genebass summary-statistic files and analysis types, and
* README documentation of the `mrp.py` command-line interface.

The analytical core `mrp.py` itself is not present in the tree; where a
statement concerns it, the definitions below are modelled from the
specification text and are marked as such in their doc comments.
-/

namespace MRPVerify

/-! ## Quality-control notebook for the array reference table

Embeds the R pipeline of the second notebook:
`in_df %>% left_join(annotation_df %>% mutate(V = paste(CHROM, POS, REF, ALT, sep=':')) %>% select(V, FILTER), by='V')`
followed by `filter(FILTER == '.') %>% select(-FILTER) %>% fwrite(...)`.
-/

/-- A row of the input array reference table
`ukb_cal-consequence_wb_maf_gene_ld_indep_mpc_pli.tsv.gz`.  The pipeline
only inspects the variant identifier `V`; the remaining columns
(gene symbol, consequence, MAF, LD independence, MPC, pLI) are carried
through unchanged and are modelled as the opaque field `rest`. -/
structure InRow where
  V : String
  rest : String
deriving DecidableEq

/-- A row of the variant annotation table, restricted to the columns the
notebook uses: the hg19 coordinates and the QC `FILTER` column. -/
structure AnnRow where
  CHROM : String
  POS : String
  REF : String
  ALT : String
  FILTER : String
deriving DecidableEq

/-- The step `mutate(V = paste(CHROM, POS, REF, ALT, sep=':'))` on the annotation
table. -/
def annKey (a : AnnRow) : String :=
  a.CHROM ++ ":" ++ a.POS ++ ":" ++ a.REF ++ ":" ++ a.ALT

/-- Result row of the left join: the input row together with the joined
`FILTER` value (`none` models the `NA` produced for unmatched rows). -/
structure MergedRow where
  row : InRow
  FILTER : Option String
deriving DecidableEq

/-- dplyr `left_join(..., by='V')`: every row of `xs` is kept; it is
paired with each annotation row of matching key (in their order), or
with `NA` when no annotation row matches. -/
def left_join (xs : List InRow) (ys : List AnnRow) : List MergedRow :=
  xs.flatMap fun x =>
    let ms := ys.filter (fun y => annKey y == x.V)
    if ms.isEmpty then [⟨x, none⟩] else ms.map fun y => ⟨x, some y.FILTER⟩

/-- The pipeline `merged_df %>% filter(FILTER == '.') %>% select(-FILTER)`: the rows
written to the QC output file (the `FILTER` column is dropped, so the
result is again a list of `InRow`). -/
def qc_output (xs : List InRow) (ys : List AnnRow) : List InRow :=
  ((left_join xs ys).filter (fun m => m.FILTER == some ".")).map (fun m => m.row)

/-- Claim C6: The QC output consists exactly of those input rows whose
`FILTER` value, joined from the annotation table by the variant
identifier `V`, is `'.'`; rows carrying any QC flag (or unmatched rows,
whose joined value is `NA`) are excluded, and the `FILTER` column is
dropped (the output row type has no `FILTER` field). -/
theorem qc_output_mem_iff (xs : List InRow) (ys : List AnnRow) (r : InRow) :
    r ∈ qc_output xs ys ↔ r ∈ xs ∧ ∃ y ∈ ys, annKey y = r.V ∧ y.FILTER = "." := by
  constructor
  · intro hr
    simp only [qc_output, List.mem_map, List.mem_filter] at hr
    obtain ⟨m, ⟨hmem, hdot⟩, hrow⟩ := hr
    simp only [left_join, List.mem_flatMap] at hmem
    obtain ⟨x, hx, hm⟩ := hmem
    by_cases hempty : (ys.filter (fun y => annKey y == x.V)).isEmpty
    · simp only [hempty, if_pos] at hm
      simp only [List.mem_singleton] at hm
      subst hm
      simp at hdot
    · simp only [hempty, if_neg, Bool.false_eq_true, not_false_iff] at hm
      simp only [List.mem_map] at hm
      obtain ⟨y, hy, hmy⟩ := hm
      subst hmy
      simp only [beq_iff_eq, Option.some.injEq] at hdot
      simp only [List.mem_filter, beq_iff_eq] at hy
      refine ⟨?_, y, hy.1, ?_, hdot⟩
      · simpa [← hrow] using hx
      · simpa [← hrow] using hy.2
  · rintro ⟨hr, y, hy, hkey, hdot⟩
    simp only [qc_output, List.mem_map, List.mem_filter]
    refine ⟨⟨r, some "."⟩, ⟨?_, by simp⟩, rfl⟩
    simp only [left_join, List.mem_flatMap]
    refine ⟨r, hr, ?_⟩
    have hmem : y ∈ ys.filter (fun y => annKey y == r.V) := by
      simp [List.mem_filter, hy, hkey]
    have hne : ¬ (ys.filter (fun y => annKey y == r.V)).isEmpty := by
      intro h
      rw [List.isEmpty_iff] at h
      simp [h] at hmem
    simp only [hne, if_neg, Bool.false_eq_true, not_false_iff, List.mem_map]
    exact ⟨y, hmem, by rw [hdot]⟩

/-! ## Combined array+exome reference-table notebook

Embeds the R pipeline of the first notebook: construction of
`exome_hg19_df` (exome rows rekeyed to hg19 via the annotation table)
and `combined_df` (inner join of the annotation variant list with
`bind_rows(exome_hg19_df, in_array_df)`, arranged by `sort_order`).
-/

/-- A row of a variant reference table (`in_array_df` / `in_exome_df`).
The pipeline manipulates only the variant identifier `V` and the
`ld_indep` column; the remaining columns are carried through unchanged
and are modelled as the opaque field `rest`. -/
structure RefRow where
  V : String
  ld_indep : String
  rest : String
deriving DecidableEq

/-- A row of the array+exome annotation table, restricted to the columns
the notebook selects: hg19 coordinates, the data source, and hg38
coordinates.  (The selected `ID` column is never used downstream.) -/
structure AnnRow2 where
  CHROM : String
  POS : String
  REF : String
  ALT : String
  geno_data_source : String
  CHROM_hg38 : String
  POS_hg38 : String
  REF_hg38 : String
  ALT_hg38 : String
deriving DecidableEq

/-- The key `paste(CHROM, POS, REF, ALT, sep=':')`: the hg19 variant key of an
annotation row. -/
def hg19Key (a : AnnRow2) : String :=
  a.CHROM ++ ":" ++ a.POS ++ ":" ++ a.REF ++ ":" ++ a.ALT

/-- The key `paste(CHROM_hg38, POS_hg38, REF_hg38, ALT_hg38, sep=':')`: the hg38
variant key of an annotation row. -/
def hg38Key (a : AnnRow2) : String :=
  a.CHROM_hg38 ++ ":" ++ a.POS_hg38 ++ ":" ++ a.REF_hg38 ++ ":" ++ a.ALT_hg38

/-- The `mutate(V = paste(CHROM, POS, REF, ALT, sep=':'), ld_indep = 'False')`
step applied to a matched exome row: rekey it to the hg19 coordinates of
the matching annotation row and clear its LD-independence mark. -/
def rekey (a : AnnRow2) (e : RefRow) : RefRow :=
  { e with V := hg19Key a, ld_indep := "False" }

/-- The pipeline `annotation_df %>% filter(geno_data_source == 'exome200k') %>%
mutate(V = hg38 key) %>% select(V, CHROM, POS, REF, ALT) %>%
inner_join(in_exome_df, by='V') %>% mutate(V = hg19 key, ld_indep = 'False') %>%
select(-CHROM, -POS, -REF, -ALT)`: exome rows mapped to hg19. -/
def exome_hg19_df (ann : List AnnRow2) (exome : List RefRow) : List RefRow :=
  (ann.filter (fun a => a.geno_data_source == "exome200k")).flatMap fun a =>
    (exome.filter (fun e => e.V == hg38Key a)).map (rekey a)

/-- The inner join `annotation (with sort_order = 1:n(), V = hg19 key)
inner_join rows by='V'`, keeping the `sort_order` column: for the
annotation rows in order, starting at index `i`, each matching data row
is emitted tagged with the annotation row's index. -/
def joinFrom (rows : List RefRow) : Nat → List AnnRow2 → List (Nat × RefRow)
  | _, [] => []
  | i, a :: as =>
    (rows.filter (fun r => r.V == hg19Key a)).map (fun r => (i, r))
      ++ joinFrom rows (i + 1) as

/-- dplyr `arrange(sort_order)`: a stable sort on the `sort_order` key. -/
def arrange (xs : List (Nat × RefRow)) : List (Nat × RefRow) :=
  xs.mergeSort (fun p q => decide (p.1 ≤ q.1))

/-- The table `combined_df`: the full pipeline — inner join of the annotation
variant list (with `sort_order`) against
`bind_rows(exome_hg19_df, in_array_df)`, `arrange(sort_order)`, then
`select(-sort_order)`. -/
def combined_df (ann : List AnnRow2) (exome array : List RefRow) : List RefRow :=
  (arrange (joinFrom (exome_hg19_df ann exome ++ array) 1 ann)).map (fun p => p.2)

theorem joinFrom_fst_le (rows : List RefRow) (as : List AnnRow2) :
    ∀ (i : Nat), ∀ p ∈ joinFrom rows i as, i ≤ p.1 := by
  induction as with
  | nil => intro i p hp; simp [joinFrom] at hp
  | cons a as ih =>
    intro i p hp
    simp only [joinFrom, List.mem_append, List.mem_map] at hp
    rcases hp with ⟨r, _, rfl⟩ | hp
    · exact Nat.le_refl i
    · exact Nat.le_of_succ_le (ih (i + 1) p hp)

theorem pairwise_true {α : Type} (l : List α) :
    List.Pairwise (fun _ _ => True) l := by
  induction l with
  | nil => exact List.Pairwise.nil
  | cons x xs ih => exact List.Pairwise.cons (fun _ _ => trivial) ih

theorem joinFrom_pairwise (rows : List RefRow) (as : List AnnRow2) :
    ∀ i : Nat,
      List.Pairwise (fun p q : Nat × RefRow => decide (p.1 ≤ q.1) = true)
        (joinFrom rows i as) := by
  induction as with
  | nil => intro i; simp [joinFrom]
  | cons a as ih =>
    intro i
    simp only [joinFrom]
    apply List.pairwise_append.mpr
    refine ⟨?_, ih (i + 1), ?_⟩
    · simp only [List.pairwise_map, decide_eq_true_eq, Nat.le_refl]
      exact pairwise_true _
    · intro p hp q hq
      obtain ⟨r, _, rfl⟩ := List.mem_map.mp hp
      have hle := joinFrom_fst_le rows as (i + 1) q hq
      simp only [decide_eq_true_eq]
      omega

theorem arrange_joinFrom (rows : List RefRow) (as : List AnnRow2) (i : Nat) :
    arrange (joinFrom rows i as) = joinFrom rows i as :=
  List.mergeSort_of_sorted (joinFrom_pairwise rows as i)

theorem joinFrom_map_snd (rows : List RefRow) (as : List AnnRow2) :
    ∀ i, (joinFrom rows i as).map (fun p => p.2)
      = as.flatMap (fun a => rows.filter (fun r => r.V == hg19Key a)) := by
  induction as with
  | nil => intro i; simp [joinFrom]
  | cons a as ih =>
    intro i
    simp [joinFrom, List.map_append, List.map_map, ih (i + 1), Function.comp]

theorem combined_df_flatMap (ann : List AnnRow2) (exome array : List RefRow) :
    combined_df ann exome array
      = ann.flatMap (fun a =>
          (exome_hg19_df ann exome ++ array).filter (fun r => r.V == hg19Key a)) := by
  rw [combined_df, arrange_joinFrom, joinFrom_map_snd]

theorem exome_hg19_df_mem (ann : List AnnRow2) (exome : List RefRow) (r : RefRow) :
    r ∈ exome_hg19_df ann exome
      ↔ ∃ a ∈ ann, a.geno_data_source = "exome200k"
          ∧ ∃ e ∈ exome, e.V = hg38Key a ∧ r = rekey a e := by
  simp only [exome_hg19_df, List.mem_flatMap, List.mem_map, List.mem_filter,
    beq_iff_eq]
  constructor
  · rintro ⟨a, ⟨ha, hsrc⟩, e, ⟨he, hkey⟩, rfl⟩
    exact ⟨a, ha, hsrc, e, he, hkey, rfl⟩
  · rintro ⟨a, ha, hsrc, e, he, hkey, rfl⟩
    exact ⟨a, ⟨ha, hsrc⟩, e, ⟨he, hkey⟩, rfl⟩

/-- Claim C7: The combined array+exome table is built by mapping exome
variants to hg19 through the annotation table — an annotation row with
`geno_data_source == 'exome200k'` is matched on its hg38 key against the
exome table and each matched variant is rekeyed to the annotation row's
hg19 `CHROM:POS:REF:ALT` — and by concatenating these rekeyed exome rows
with the array rows (`bind_rows`), which the annotation join then turns
into `combined_df`. -/
theorem combined_construction (ann : List AnnRow2) (exome array : List RefRow)
    (r : RefRow) :
    (r ∈ exome_hg19_df ann exome
      ↔ ∃ a ∈ ann, a.geno_data_source = "exome200k"
          ∧ ∃ e ∈ exome, e.V = hg38Key a
              ∧ r = { e with V := hg19Key a, ld_indep := "False" })
    ∧ (r ∈ combined_df ann exome array
      ↔ (r ∈ exome_hg19_df ann exome ∨ r ∈ array)
          ∧ ∃ a ∈ ann, hg19Key a = r.V) := by
  constructor
  · exact exome_hg19_df_mem ann exome r
  · rw [combined_df_flatMap]
    simp only [List.mem_flatMap, List.mem_filter, List.mem_append, beq_iff_eq]
    constructor
    · rintro ⟨a, ha, hmem, hkey⟩
      exact ⟨hmem, a, ha, hkey.symm⟩
    · rintro ⟨hmem, a, ha, hkey⟩
      exact ⟨a, ha, hmem, hkey.symm⟩

/-- Claim C9: Every row of the combined table that originates from the
exome dataset (i.e. comes from `exome_hg19_df`) has its `ld_indep` field
set to the string `'False'`; consequently any row of `combined_df` that
is marked LD-independent can only originate from the array dataset. -/
theorem exome_rows_not_ld_indep (ann : List AnnRow2) (exome array : List RefRow) :
    (∀ r ∈ exome_hg19_df ann exome, r.ld_indep = "False")
    ∧ (∀ r ∈ combined_df ann exome array, r.ld_indep ≠ "False" → r ∈ array) := by
  have hexome : ∀ r ∈ exome_hg19_df ann exome, r.ld_indep = "False" := by
    intro r hr
    obtain ⟨a, _, _, e, _, _, rfl⟩ := (exome_hg19_df_mem ann exome r).mp hr
    rfl
  refine ⟨hexome, ?_⟩
  intro r hr hne
  rw [combined_df_flatMap] at hr
  simp only [List.mem_flatMap, List.mem_filter, List.mem_append] at hr
  obtain ⟨a, _, hmem, _⟩ := hr
  rcases hmem with hx | hx
  · exact absurd (hexome r hx) hne
  · exact hx

/-- Claim C10: The combined table contains only variants whose identifier
appears (as an hg19 key) in the annotation table — both joins are inner
joins, so unmatched variants from either input are dropped — and its
rows appear in the order in which those variants occur in the annotation
table (the pipeline equals a flat traversal of the annotation rows in
order). -/
theorem combined_df_order_and_membership (ann : List AnnRow2)
    (exome array : List RefRow) :
    combined_df ann exome array
      = ann.flatMap (fun a =>
          (exome_hg19_df ann exome ++ array).filter (fun r => r.V == hg19Key a))
    ∧ ∀ r ∈ combined_df ann exome array, ∃ a ∈ ann, hg19Key a = r.V := by
  refine ⟨combined_df_flatMap ann exome array, ?_⟩
  intro r hr
  rw [combined_df_flatMap] at hr
  simp only [List.mem_flatMap, List.mem_filter, beq_iff_eq] at hr
  obtain ⟨a, ha, _, hkey⟩ := hr
  exact ⟨a, ha, hkey.symm⟩

/-! ## Batch-submission script `submit_jobs.sh` -/

/-- The array `TYPES_OF_ANALYSIS=("ultrarare" "pav" "missenseonly")`. -/
def typesOfAnalysis : List String := ["ultrarare", "pav", "missenseonly"]

/-- An input file of the loop `for FILE in ${DIRECTORY}*.genebass.tsv.gz`:
the file for basename `name` (`FILENAME=$(basename "$FILE" .genebass.tsv.gz)`)
is `DIRECTORY ++ name ++ ".genebass.tsv.gz"`. -/
def inputFile (dir name : String) : String :=
  dir ++ name ++ ".genebass.tsv.gz"

/-- The expected output file, from
`OUTPUT_FILE="${OUTPUT_DIRECTORY}study1_${FILENAME}.genebass.tsv.gz_${TYPE}_gene_maf_0.01_se_1e+18.tsv.gz"`. -/
def outputFile (outDir name ty : String) : String :=
  outDir ++ "study1_" ++ name ++ ".genebass.tsv.gz_" ++ ty
    ++ "_gene_maf_0.01_se_1e+18.tsv.gz"

/-- The `sbatch` jobs submitted by the double loop of `submit_jobs.sh`,
as (input file, analysis type) pairs passed to
`--wrap="python load_mrp.py FILE TYPE"`: for each input basename and
each analysis type, a job is submitted exactly when the corresponding
output file does not already exist (`[ ! -f "$OUTPUT_FILE" ]`).
`names` are the basenames of the files matched by the glob and
`existing` the files present in the output directory. -/
def submittedJobs (dir outDir : String) (names existing : List String) :
    List (String × String) :=
  names.flatMap fun name =>
    typesOfAnalysis.filterMap fun ty =>
      if outputFile outDir name ty ∈ existing then none
      else some (inputFile dir name, ty)

theorem inputFile_inj (dir n₁ n₂ : String)
    (h : inputFile dir n₁ = inputFile dir n₂) : n₁ = n₂ := by
  apply String.ext
  have h2 := congrArg String.data h
  simp only [inputFile, String.data_append] at h2
  exact List.append_cancel_left (List.append_cancel_right h2)

theorem submittedJobs_fst (dir outDir : String) (names existing : List String)
    (b : String × String) (hb : b ∈ submittedJobs dir outDir names existing) :
    ∃ n ∈ names, b.1 = inputFile dir n := by
  simp only [submittedJobs, List.mem_flatMap, List.mem_filterMap] at hb
  obtain ⟨n, hn, ty, _, hsome⟩ := hb
  by_cases hex : outputFile outDir n ty ∈ existing
  · simp [hex] at hsome
  · simp only [hex, if_neg, not_false_iff, Option.some.injEq] at hsome
    exact ⟨n, hn, by rw [← hsome]⟩

theorem submittedJobs_mem (dir outDir : String) (names existing : List String)
    (name ty : String) :
    (inputFile dir name, ty) ∈ submittedJobs dir outDir names existing
      ↔ name ∈ names ∧ ty ∈ typesOfAnalysis
          ∧ outputFile outDir name ty ∉ existing := by
  simp only [submittedJobs, List.mem_flatMap, List.mem_filterMap]
  constructor
  · rintro ⟨n, hn, t, ht, hsome⟩
    by_cases hex : outputFile outDir n t ∈ existing
    · simp [hex] at hsome
    · simp only [hex, if_neg, not_false_iff, Option.some.injEq, Prod.mk.injEq]
        at hsome
      obtain ⟨hfile, hty⟩ := hsome
      obtain rfl := inputFile_inj dir n name hfile
      subst hty
      exact ⟨hn, ht, hex⟩
  · rintro ⟨hn, ht, hex⟩
    exact ⟨name, hn, ty, ht, by simp [hex]⟩

theorem submittedJobs_nodup (dir outDir : String) (names existing : List String)
    (h : names.Nodup) : (submittedJobs dir outDir names existing).Nodup := by
  induction names with
  | nil => simp [submittedJobs]
  | cons n ns ih =>
    rw [submittedJobs, List.flatMap_cons]
    have hne : n ∉ ns := (List.nodup_cons.mp h).1
    apply List.Nodup.append
    · apply List.Nodup.filterMap
      · intro t t2 b hb hb2
        by_cases h1 : outputFile outDir n t ∈ existing
        · simp [h1] at hb
        · by_cases h2 : outputFile outDir n t2 ∈ existing
          · simp [h2] at hb2
          · simp only [h1, h2, if_neg, not_false_iff, Option.mem_def,
              Option.some.injEq] at hb hb2
            rw [← hb2] at hb
            exact congrArg Prod.snd hb
      · exact (by decide : typesOfAnalysis.Nodup)
    · exact ih (List.nodup_cons.mp h).2
    · intro b hb hb2
      have hb1 : b.1 = inputFile dir n := by
        simp only [List.mem_filterMap] at hb
        obtain ⟨t, _, hsome⟩ := hb
        by_cases hex : outputFile outDir n t ∈ existing
        · simp [hex] at hsome
        · simp only [hex, if_neg, not_false_iff, Option.some.injEq] at hsome
          rw [← hsome]
      obtain ⟨n2, hn2, hb1b⟩ := submittedJobs_fst dir outDir ns existing b hb2
      exact hne (inputFile_inj dir n n2 (hb1 ▸ hb1b) ▸ hn2)

/-- Claim C8: For every input basename and every analysis type in
`{ultrarare, pav, missenseonly}`, `submit_jobs.sh` submits exactly one
sbatch job running `load_mrp.py` on that file and type when the output
file `study1_<name>.genebass.tsv.gz_<type>_gene_maf_0.01_se_1e+18.tsv.gz`
does not already exist in the output directory, and submits no job for
that pair otherwise; in particular, when every expected output exists,
re-running the script submits nothing. -/
theorem submit_jobs_spec (dir outDir : String) (names existing : List String) :
    (∀ name ty, (inputFile dir name, ty) ∈ submittedJobs dir outDir names existing
        ↔ name ∈ names ∧ ty ∈ typesOfAnalysis
            ∧ outputFile outDir name ty ∉ existing)
    ∧ (names.Nodup → (submittedJobs dir outDir names existing).Nodup)
    ∧ ((∀ n ∈ names, ∀ t ∈ typesOfAnalysis, outputFile outDir n t ∈ existing) →
        submittedJobs dir outDir names existing = []) := by
  refine ⟨fun name ty => submittedJobs_mem dir outDir names existing name ty,
    fun h => submittedJobs_nodup dir outDir names existing h, ?_⟩
  intro hall
  rw [List.eq_nil_iff_forall_not_mem]
  intro b hb
  simp only [submittedJobs, List.mem_flatMap, List.mem_filterMap] at hb
  obtain ⟨n, hn, t, ht, hsome⟩ := hb
  rw [if_pos (hall n hn t ht)] at hsome
  cases hsome

/-! ## The `mrp.py` analysis grid, modelled from the spec

The analytical script `mrp.py` / `mrp_production.py` is not part of the
tree; only its README documentation is.  The definitions in this section
are therefore modelled from the specification text and the documented
command-line interface.
-/

/-- Modelled from the spec (`mrp.py` is missing from the tree): type of
model across studies or across variants,
`--R_study {independent,similar}` / `--R_var {independent,similar}`. -/
inductive RType where
  | independent : RType
  | similar : RType
deriving DecidableEq

/-- Modelled from the spec (`mrp.py` is missing from the tree): unit of
aggregation `--M {variant,gene}`. -/
inductive MType where
  | variant : MType
  | gene : MType
deriving DecidableEq

/-- Modelled from the spec (`mrp.py` is missing from the tree): variant
scaling factor
`--sigma_m_types {sigma_m_mpc_pli,sigma_m_var,sigma_m_1,sigma_m_005}`. -/
inductive SigmaMType where
  | sigma_m_mpc_pli : SigmaMType
  | sigma_m_var : SigmaMType
  | sigma_m_1 : SigmaMType
  | sigma_m_005 : SigmaMType
deriving DecidableEq

/-- Modelled from the spec (`mrp.py` is missing from the tree): variant
set `--variants {pcv,pav,ptv}`. -/
inductive VariantSet where
  | pcv : VariantSet
  | pav : VariantSet
  | ptv : VariantSet
deriving DecidableEq

/-- Modelled from the spec (`mrp.py` is missing from the tree): method
for converting a Bayes factor to a p-value,
`--p_value {farebrother,davies,imhof}`. -/
inductive PValueMethod where
  | farebrother : PValueMethod
  | davies : PValueMethod
  | imhof : PValueMethod
deriving DecidableEq

/-- Modelled from the spec: the argparse choices for `--R_study` /
`--R_var`; any string other than the two documented options is
rejected. -/
def parseRType (s : String) : Option RType :=
  if s = "independent" then some RType.independent
  else if s = "similar" then some RType.similar
  else none

/-- Modelled from the spec: the argparse choices for `--p_value`; any
string other than the three documented methods is rejected. -/
def parsePValueMethod (s : String) : Option PValueMethod :=
  if s = "farebrother" then some PValueMethod.farebrother
  else if s = "davies" then some PValueMethod.davies
  else if s = "imhof" then some PValueMethod.imhof
  else none

/-- Modelled from the spec: the list-valued analysis parameters of the
`mrp.py` command line (each option accepts one or more values;
`p_value = []` models the `--p_value` option not being invoked). -/
structure Config where
  R_study : List RType
  R_var : List RType
  M : List MType
  sigma_m_types : List SigmaMType
  variants : List VariantSet
  maf_thresh : List ℚ
  se_thresh : List ℚ
  p_value : List PValueMethod

/-- One point of the analysis parameter grid. -/
structure AnalysisParams where
  R_study : RType
  R_var : RType
  M : MType
  sigma_m_type : SigmaMType
  variant_set : VariantSet
  maf_thresh : ℚ
  se_thresh : ℚ
deriving DecidableEq

/-- Modelled from the spec: the combinatorial expansion over the
parameter grid — one analysis for every element of the Cartesian
product of the supplied parameter lists. -/
def analysisGrid (cfg : Config) : List AnalysisParams :=
  cfg.R_study.flatMap fun rs =>
    cfg.R_var.flatMap fun rv =>
      cfg.M.flatMap fun m =>
        cfg.sigma_m_types.flatMap fun sm =>
          cfg.variants.flatMap fun vs =>
            cfg.maf_thresh.flatMap fun mt =>
              cfg.se_thresh.map fun st =>
                ⟨rs, rv, m, sm, vs, mt, st⟩

theorem length_flatMap_const {α β : Type} (l : List α) (f : α → List β) (c : Nat)
    (h : ∀ a, (f a).length = c) : (l.flatMap f).length = l.length * c := by
  induction l with
  | nil => simp
  | cons x xs ih =>
    simp only [List.flatMap_cons, List.length_append, List.length_cons, h, ih]
    ring

/-- Claim C4: The program expands combinatorially over the parameter grid:
a parameter combination is analysed exactly when each component was
supplied in its list, and the number of analyses is the product of the
lengths of the seven supplied parameter lists. -/
theorem analysis_grid_spec (cfg : Config) (p : AnalysisParams) :
    (p ∈ analysisGrid cfg
      ↔ p.R_study ∈ cfg.R_study ∧ p.R_var ∈ cfg.R_var ∧ p.M ∈ cfg.M
          ∧ p.sigma_m_type ∈ cfg.sigma_m_types ∧ p.variant_set ∈ cfg.variants
          ∧ p.maf_thresh ∈ cfg.maf_thresh ∧ p.se_thresh ∈ cfg.se_thresh)
    ∧ (analysisGrid cfg).length
      = cfg.R_study.length * (cfg.R_var.length * (cfg.M.length
          * (cfg.sigma_m_types.length * (cfg.variants.length
              * (cfg.maf_thresh.length * cfg.se_thresh.length))))) := by
  constructor
  · obtain ⟨rs, rv, m, sm, vs, mt, st⟩ := p
    simp only [analysisGrid, List.mem_flatMap, List.mem_map,
      AnalysisParams.mk.injEq]
    constructor
    · rintro ⟨a, ha, b, hb, c, hc, d, hd, e, he, f, hf, g, hg,
        h1, h2, h3, h4, h5, h6, h7⟩
      subst h1 h2 h3 h4 h5 h6 h7
      exact ⟨ha, hb, hc, hd, he, hf, hg⟩
    · rintro ⟨ha, hb, hc, hd, he, hf, hg⟩
      exact ⟨rs, ha, rv, hb, m, hc, sm, hd, vs, he, mt, hf, st, hg,
        rfl, rfl, rfl, rfl, rfl, rfl, rfl⟩
  · apply length_flatMap_const
    intro rs
    apply length_flatMap_const
    intro rv
    apply length_flatMap_const
    intro m
    apply length_flatMap_const
    intro sm
    apply length_flatMap_const
    intro vs
    apply length_flatMap_const
    intro mt
    exact List.length_map _ _

/-- Claim C3: The covariance structure is selectable independently along
two axes: the `--R_study` and `--R_var` options each accept exactly the
strings `independent` and `similar` (any other string is rejected by the
parser), the model type has exactly these two inhabitants, and every
combination of the two axes is expressible in a configuration. -/
theorem covariance_axes_spec :
    (∀ s : String, (parseRType s).isSome ↔ s = "independent" ∨ s = "similar")
    ∧ (∀ t : RType, t = RType.independent ∨ t = RType.similar)
    ∧ (∀ rs rv : RType, ∃ cfg : Config, cfg.R_study = [rs] ∧ cfg.R_var = [rv]) := by
  refine ⟨?_, ?_, ?_⟩
  · intro s
    by_cases h1 : s = "independent"
    · simp [parseRType, h1]
    · by_cases h2 : s = "similar" <;> simp [parseRType, h1, h2]
  · intro t
    cases t
    · exact Or.inl rfl
    · exact Or.inr rfl
  · intro rs rv
    exact ⟨⟨[rs], [rv], [], [], [], [], [], []⟩, rfl, rfl⟩

/-- Modelled from the spec: the optional p-value computation of
`mrp.py`.  The numerical quadratic-form routines (Farebrother, Davies,
Imhof — imported R objects) are abstracted as the conversion function
`convert`; the analysis converts the Bayes factor once per requested
method, and not at all when `--p_value` was not invoked. -/
def runPValues (convert : PValueMethod → ℚ → ℚ) (cfg : Config) (bf : ℚ) :
    List (PValueMethod × ℚ) :=
  cfg.p_value.map fun m => (m, convert m bf)

/-- Claim C2: P-values are computed only when the `--p_value` option is
invoked (no p-value is calculated otherwise), and when computed the
Bayes factor is converted via one of exactly three methods —
farebrother, davies or imhof (the parser rejects every other string,
and the method type has exactly these three inhabitants). -/
theorem p_value_option_spec (convert : PValueMethod → ℚ → ℚ) (cfg : Config)
    (bf : ℚ) :
    (runPValues convert cfg bf = [] ↔ cfg.p_value = [])
    ∧ (∀ pr ∈ runPValues convert cfg bf,
        pr.1 ∈ cfg.p_value ∧ pr.2 = convert pr.1 bf)
    ∧ (∀ m : PValueMethod,
        m = PValueMethod.farebrother ∨ m = PValueMethod.davies
          ∨ m = PValueMethod.imhof)
    ∧ (∀ s : String, (parsePValueMethod s).isSome
        ↔ s = "farebrother" ∨ s = "davies" ∨ s = "imhof") := by
  refine ⟨?_, ?_, ?_, ?_⟩
  · simp [runPValues]
  · intro pr hpr
    simp only [runPValues, List.mem_map] at hpr
    obtain ⟨m, hm, rfl⟩ := hpr
    exact ⟨hm, rfl⟩
  · intro m
    cases m
    · exact Or.inl rfl
    · exact Or.inr (Or.inl rfl)
    · exact Or.inr (Or.inr rfl)
  · intro s
    by_cases h1 : s = "farebrother"
    · simp [parsePValueMethod, h1]
    · by_cases h2 : s = "davies"
      · simp [parsePValueMethod, h1, h2]
      · by_cases h3 : s = "imhof" <;> simp [parsePValueMethod, h1, h2, h3]

/-- Modelled from the spec: a line of the map file passed to `--file`
(summary-statistic file path, study, phenotype, and whether the file is
used in `R_phen` generation). -/
structure MapRow where
  path : String
  study : String
  pheno : String
  R_phen : Bool
deriving DecidableEq

/-- Modelled from the spec: a line of the variant metadata table passed
to `--metadata_path` (variant identifier and gene symbol; the other
columns play no role in the aggregation key). -/
structure MetaRow where
  V : String
  gene_symbol : String
deriving DecidableEq

/-- Modelled from the spec: a single-variant association summary
statistic (effect size and standard error). -/
structure SumStat where
  V : String
  beta : ℚ
  se : ℚ
deriving DecidableEq

/-- Modelled from the spec: the unit of aggregation — statistics are
pooled per gene symbol under `--M gene` and per variant under
`--M variant`. -/
def aggKey (m : MType) (r : MetaRow) : String :=
  match m with
  | MType.gene => r.gene_symbol
  | MType.variant => r.V

/-- The aggregation key of a summary statistic: the key of its metadata
row, when the variant is present in the metadata table. -/
def keyOf (m : MType) (md : List MetaRow) (s : SumStat) : Option String :=
  (md.find? (fun r => r.V == s.V)).map (aggKey m)

/-- Modelled from the spec: grouping of the summary statistics into
aggregation units. -/
def groupsFor (m : MType) (md : List MetaRow) (stats : List SumStat) :
    List (String × List SumStat) :=
  ((stats.filterMap (keyOf m md)).dedup).map fun k =>
    (k, stats.filter (fun s => keyOf m md s == some k))

/-- Modelled from the spec: the studies listed in the map file. -/
def studiesOf (mf : List MapRow) : List String :=
  (mf.map fun r => r.study).dedup

/-- Modelled from the spec: the phenotypes listed in the map file. -/
def phenosOf (mf : List MapRow) : List String :=
  (mf.map fun r => r.pheno).dedup

/-- Claim C5: The procedure aggregates single-variant summary statistics
at a selectable unit: under `--M variant` every group is keyed by the
variant itself (each member has the group's variant identifier), under
`--M gene` every group is keyed by a gene symbol taken from the metadata
row of each member variant; and the studies and phenotypes analysed are
exactly those listed in the map file. -/
theorem aggregation_spec (md : List MetaRow) (stats : List SumStat)
    (mf : List MapRow) :
    (∀ p ∈ groupsFor MType.variant md stats, ∀ s ∈ p.2, p.1 = s.V)
    ∧ (∀ p ∈ groupsFor MType.gene md stats, ∀ s ∈ p.2,
        ∃ r ∈ md, r.V = s.V ∧ p.1 = r.gene_symbol)
    ∧ (∀ st, st ∈ studiesOf mf ↔ ∃ r ∈ mf, r.study = st)
    ∧ (∀ ph, ph ∈ phenosOf mf ↔ ∃ r ∈ mf, r.pheno = ph) := by
  have hkey : ∀ (m : MType) (p : String × List SumStat),
      p ∈ groupsFor m md stats → ∀ s ∈ p.2,
        ∃ r, md.find? (fun r => r.V == s.V) = some r ∧ aggKey m r = p.1 := by
    intro m p hp s hs
    simp only [groupsFor, List.mem_map] at hp
    obtain ⟨k, _, rfl⟩ := hp
    simp only [List.mem_filter, beq_iff_eq] at hs
    have hsk := hs.2
    simp only [keyOf, Option.map_eq_some'] at hsk
    obtain ⟨r, hr, hak⟩ := hsk
    exact ⟨r, hr, hak⟩
  refine ⟨?_, ?_, ?_, ?_⟩
  · intro p hp s hs
    obtain ⟨r, hr, hak⟩ := hkey MType.variant p hp s hs
    have hrv : r.V = s.V := by
      have := List.find?_some hr
      simpa using this
    rw [← hak, aggKey, hrv]
  · intro p hp s hs
    obtain ⟨r, hr, hak⟩ := hkey MType.gene p hp s hs
    have hrv : r.V = s.V := by
      have := List.find?_some hr
      simpa using this
    exact ⟨r, List.mem_of_find?_eq_some hr, hrv, hak.symm⟩
  · intro st
    simp [studiesOf, List.mem_dedup, List.mem_map]
  · intro ph
    simp [phenosOf, List.mem_dedup, List.mem_map]

/-! ## The MRP Bayes-factor core, modelled from the spec -/

/-- Modelled from the spec (`mrp.py` is missing from the tree): the
correlation matrix of one axis of the covariance structure — the
identity under `independent`, the all-ones matrix under `similar`. -/
def R_matrix (t : RType) (n : ℕ) : Matrix (Fin n) (Fin n) ℚ :=
  match t with
  | RType.independent => 1
  | RType.similar => Matrix.of fun _ _ => 1

/-- Modelled from the spec (`mrp.py` is missing from the tree): the
prior covariance over the study×variant effect space — the Kronecker
product of the per-study and per-variant correlation structures, scaled
on both sides by the per-variant spreads `σm`. -/
def priorCov (rs rv : RType) (S M : ℕ) (σm : Fin M → ℚ) :
    Matrix (Fin S × Fin M) (Fin S × Fin M) ℚ :=
  Matrix.diagonal (fun p => σm p.2)
    * Matrix.kroneckerMap (· * ·) (R_matrix rs S) (R_matrix rv M)
    * Matrix.diagonal (fun p => σm p.2)

/-- Modelled from the spec (`mrp.py` is missing from the tree): the
likelihood covariance of the matrix of standardized effect sizes —
diagonal in the squared standard errors. -/
def likelihoodCov (S M : ℕ) (se : Fin S × Fin M → ℚ) :
    Matrix (Fin S × Fin M) (Fin S × Fin M) ℚ :=
  Matrix.diagonal fun p => se p ^ 2

/-- The quadratic form `βᵀ Σ⁻¹ β`, computed over `ℚ` through the
adjugate so that it stays executable. -/
def quadForm {n : Type} [Fintype n] [DecidableEq n]
    (A : Matrix n n ℚ) (β : n → ℚ) : ℚ :=
  Matrix.dotProduct β (A.adjugate.mulVec β) / A.det

/-- Modelled from the spec: the closed-form Bayes factor contrasting the
null model `β ~ N(0, A)` against an alternative `β ~ N(0, A + U)`.  The
value `BF = √(det A / det (A + U)) · exp((βᵀA⁻¹β − βᵀ(A+U)⁻¹β)/2)` is
determined by the rational pair returned here: the determinant ratio and
the difference of the two quadratic forms. -/
def closedFormBF {n : Type} [Fintype n] [DecidableEq n]
    (A U : Matrix n n ℚ) (β : n → ℚ) : ℚ × ℚ :=
  (A.det / (A + U).det, quadForm A β - quadForm (A + U) β)

/-- Modelled from the spec: the MRP core — construct the likelihood and
prior covariance structures over the study×variant space and compute the
closed-form Bayes factor of the selected alternative model against the
null model. -/
def mrp_core (S M : ℕ) (rs rv : RType) (σm : Fin M → ℚ)
    (se β : Fin S × Fin M → ℚ) : ℚ × ℚ :=
  closedFormBF (likelihoodCov S M se) (priorCov rs rv S M σm) β

/-- Claim C1: For every matrix of standardized effect sizes over the
study×variant space, the MRP core computes the closed-form Bayes factor
from the constructed likelihood and prior covariance structures; the
prior covariance entries realise the selected study-axis and
variant-axis correlation structures scaled by the per-variant spreads;
and the Bayes factor genuinely contrasts the alternative against the
null model: when the alternative adds nothing to the null (`U = 0`) it
is `1` (the pair `(1, 0)`). -/
theorem mrp_core_spec (S M : ℕ) (rs rv : RType) (σm : Fin M → ℚ)
    (se β : Fin S × Fin M → ℚ) (hse : ∀ p, se p ≠ 0) :
    mrp_core S M rs rv σm se β
      = closedFormBF (likelihoodCov S M se) (priorCov rs rv S M σm) β
    ∧ (∀ p q : Fin S × Fin M, priorCov rs rv S M σm p q
        = σm p.2 * (R_matrix rs S p.1 q.1 * R_matrix rv M p.2 q.2) * σm q.2)
    ∧ closedFormBF (likelihoodCov S M se) 0 β = (1, 0) := by
  refine ⟨rfl, ?_, ?_⟩
  · intro p q
    obtain ⟨p1, p2⟩ := p
    obtain ⟨q1, q2⟩ := q
    simp [priorCov, Matrix.mul_diagonal, Matrix.diagonal_mul,
      Matrix.kroneckerMap_apply]
  · have hdet : (likelihoodCov S M se).det ≠ 0 := by
      rw [likelihoodCov, Matrix.det_diagonal]
      apply Finset.prod_ne_zero_iff.mpr
      intro p _
      exact pow_ne_zero 2 (hse p)
    simp [closedFormBF, div_self hdet]

/-- Concrete instantiation of `mrp_core_spec` at a one-study,
one-variant input with unit standard errors. -/
theorem mrp_core_spec_witness :
    (∀ p : Fin 1 × Fin 1, (fun _ : Fin 1 × Fin 1 => (1 : ℚ)) p ≠ 0)
    ∧ (mrp_core 1 1 RType.independent RType.similar (fun _ => 1)
          (fun _ => 1) (fun _ => 1)
        = closedFormBF (likelihoodCov 1 1 fun _ => 1)
            (priorCov RType.independent RType.similar 1 1 fun _ => 1)
            (fun _ => 1)
      ∧ (∀ p q : Fin 1 × Fin 1,
          priorCov RType.independent RType.similar 1 1 (fun _ => 1) p q
            = (fun _ : Fin 1 => (1 : ℚ)) p.2
                * (R_matrix RType.independent 1 p.1 q.1
                    * R_matrix RType.similar 1 p.2 q.2)
                * (fun _ : Fin 1 => (1 : ℚ)) q.2)
      ∧ closedFormBF (likelihoodCov 1 1 fun _ => 1) 0 (fun _ => 1) = (1, 0)) :=
  ⟨fun _ => one_ne_zero,
    mrp_core_spec 1 1 RType.independent RType.similar (fun _ => 1)
      (fun _ => 1) (fun _ => 1) (fun _ => one_ne_zero)⟩

end MRPVerify
